import Mathlib

/-!
Shallow embedding of `src/packing_coloring_optimizer.py`.

The Python function `solve_packing_coloring(G)` builds a MILP for the
packing-coloring problem of a NetworkX graph `G` and hands it to an
external solver.  We embed the graph, the all-pairs shortest-path
distance oracle, the model construction (variables, bounds, objective
and the three constraint families, in the order the source adds them),
the feasibility semantics of the constructed model, and the decoding of
a solver valuation into a colour assignment.  The external solver itself
is an input: a terminal status together with a valuation of the
variables.
-/

namespace PackingColoring

/-- A NetworkX-style undirected graph: a list of vertices and a list of
edges.  Adjacency is symmetric by construction, as in `nx.Graph`. -/
structure Graph where
  nodes : List Nat
  edges : List (Nat × Nat)
deriving DecidableEq

/-- Undirected adjacency: an edge in either orientation. -/
def Graph.adj (G : Graph) (v u : Nat) : Bool :=
  G.edges.any (fun e => (e.1 == v && e.2 == u) || (e.1 == u && e.2 == v))

/-- `reachWithin G t v u` holds when there is a walk from `v` to `u` of
length at most `t` whose vertices after `v` are nodes of `G`. -/
def reachWithin (G : Graph) : Nat → Nat → Nat → Bool
  | 0, v, u => v == u
  | t + 1, v, u => v == u || G.nodes.any (fun w => G.adj v w && reachWithin G t w u)

/-- The distance oracle of line 39 of the source,
`nx.all_pairs_shortest_path_length`: the least walk length from `v` to
`u` (a shortest path never exceeds `|V|` steps), or `none` when `u` is
unreachable from `v`. -/
def shortest_path_length (G : Graph) (v u : Nat) : Option Nat :=
  (List.range (G.nodes.length + 1)).find? (fun t => reachWithin G t v u)

/-- `itertools.combinations(G.nodes, 2)` of line 41: each pair of a node
with a node occurring later in the node list. -/
def combos2 : List Nat → List (Nat × Nat)
  | [] => []
  | v :: rest => rest.map (fun u => (v, u)) ++ combos2 rest

/-- The decision variables of the model: the binary `x_{v}_{i}` of
line 25 and the integer `z` of line 28. -/
inductive Var where
  | x (v i : Nat)
  | z
deriving DecidableEq

/-- Relation of a linear constraint. -/
inductive Rel where
  | le
  | eq
deriving DecidableEq

/-- Optimisation sense (`LpMinimize` / `LpMaximize`). -/
inductive Sense where
  | minimize
  | maximize
deriving DecidableEq

/-- A linear constraint `Σ cⱼ · varⱼ (≤ | =) rhs`. -/
structure LinCon where
  coeffs : List (Int × Var)
  rel : Rel
  rhs : Int
deriving DecidableEq

/-- Constraint `OneColor_v` of line 35: `Σ_{i=1}^{k} x(v,i) = 1`. -/
def oneCon (k v : Nat) : LinCon :=
  ⟨(List.range' 1 k).map (fun i => ((1 : Int), Var.x v i)), Rel.eq, 1⟩

/-- Constraint `Pack_v_u_color_i` of line 44: `x(v,i) + x(u,i) ≤ 1`. -/
def packCon (v u i : Nat) : LinCon :=
  ⟨[((1 : Int), Var.x v i), ((1 : Int), Var.x u i)], Rel.le, 1⟩

/-- Constraint `MaxColor_v_i` of line 49: `i·x(v,i) ≤ z`, normalised to
`i·x(v,i) - z ≤ 0`. -/
def maxCon (v i : Nat) : LinCon :=
  ⟨[((i : Int), Var.x v i), ((-1 : Int), Var.z)], Rel.le, 0⟩

/-- The constructed optimisation model: the colour bound `k`, the index
set of the binary `x` variables, bounds of `z`, the objective with its
sense, and the constraint list. -/
structure PCModel where
  k : Nat
  xIdx : List (Nat × Nat)
  zLow : Int
  zUp : Int
  objective : List (Int × Var)
  sense : Sense
  constraints : List LinCon

/-- Lines 19-49 of the source: `k = |V|`; binary `x(v,i)` for every node
`v` and colour `i ∈ [1,k]`; integer `z ∈ [1,k]`; objective `minimize z`;
then the `OneColor`, `Pack` and `MaxColor` constraint families in source
order (colour-outer loop over `combinations(G.nodes, 2)` for `Pack`,
skipping pairs whose distance lookup returns nothing). -/
def buildModel (G : Graph) : PCModel :=
  ⟨G.nodes.length,
   G.nodes.flatMap (fun v => (List.range' 1 G.nodes.length).map (fun i => (v, i))),
   1,
   (G.nodes.length : Int),
   [((1 : Int), Var.z)],
   Sense.minimize,
   (G.nodes.map (fun v => oneCon G.nodes.length v))
     ++ ((List.range' 1 G.nodes.length).flatMap (fun i =>
          (combos2 G.nodes).filterMap (fun p =>
            (shortest_path_length G p.1 p.2).bind (fun d =>
              if d ≤ i then some (packCon p.1 p.2 i) else none))))
     ++ (G.nodes.flatMap (fun v => (List.range' 1 G.nodes.length).map (fun i => maxCon v i)))⟩

/-- Value of a linear form under a valuation of the variables. -/
def evalLin (val : Var → ℚ) (l : List (Int × Var)) : ℚ :=
  (l.map (fun cw => (cw.1 : ℚ) * val cw.2)).sum

/-- Whether a valuation satisfies one linear constraint. -/
def conHolds (val : Var → ℚ) (c : LinCon) : Bool :=
  match c.rel with
  | Rel.le => decide (evalLin val c.coeffs ≤ (c.rhs : ℚ))
  | Rel.eq => decide (evalLin val c.coeffs = (c.rhs : ℚ))

/-- The valuation is an integral feasible solution of the constructed
model: every `x` variable is 0/1, `z` is an integer within its bounds,
and every constraint holds. -/
def IntegralFeasible (G : Graph) (val : Var → ℚ) : Prop :=
  (∀ p ∈ (buildModel G).xIdx, val (Var.x p.1 p.2) = 0 ∨ val (Var.x p.1 p.2) = 1) ∧
  (∃ n : Int, val Var.z = (n : ℚ)) ∧
  ((buildModel G).zLow : ℚ) ≤ val Var.z ∧
  val Var.z ≤ ((buildModel G).zUp : ℚ) ∧
  (∀ c ∈ (buildModel G).constraints, conHolds val c = true)

/-- Lines 58-63 of the source: for each vertex, in node order, the first
colour `i ∈ [1,k]` (increasing) whose solved value exceeds `0.5`. -/
def color_assignment (G : Graph) (val : Var → ℚ) : List (Nat × Nat) :=
  G.nodes.filterMap (fun v =>
    ((List.range' 1 G.nodes.length).find?
        (fun i => decide ((1 : ℚ) / 2 < val (Var.x v i)))).map (fun i => (v, i)))

/-- Terminal statuses of the external solver (pulp's `LpStatus`). -/
inductive LpStatus where
  | notSolved
  | optimal
  | infeasible
  | unbounded
  | undefined
deriving DecidableEq

/-- Lines 52-66 of the source: given the solver's terminal status and
the valuation it reports, return the decoded colour assignment and the
value of `z` on optimal status, and `(None, None)` otherwise. -/
def solve_packing_coloring (G : Graph) (status : LpStatus) (val : Var → ℚ) :
    Option (List (Nat × Nat)) × Option ℚ :=
  match status with
  | LpStatus.optimal => (some (color_assignment G val), some (val Var.z))
  | _ => (none, none)

/-! ### Basic lemmas about the graph embedding -/

theorem adj_symm (G : Graph) (v u : Nat) : G.adj v u = G.adj u v := by
  rw [Bool.eq_iff_iff]
  simp only [Graph.adj, List.any_eq_true, Bool.or_eq_true, Bool.and_eq_true, beq_iff_eq]
  constructor <;> (rintro ⟨e, he, hp⟩; exact ⟨e, he, hp.symm⟩)

theorem reach_zero (G : Graph) (v u : Nat) :
    reachWithin G 0 v u = (v == u) := rfl

theorem reach_succ (G : Graph) (t v u : Nat) :
    reachWithin G (t + 1) v u =
      (v == u || G.nodes.any (fun w => G.adj v w && reachWithin G t w u)) := rfl

theorem reach_refl (G : Graph) (t v : Nat) : reachWithin G t v v = true := by
  cases t with
  | zero => simp [reach_zero]
  | succ t => simp [reach_succ]

theorem reach_snoc (G : Graph) {w u : Nat} (hu : u ∈ G.nodes) (ha : G.adj w u = true) :
    ∀ t a, reachWithin G t a w = true → reachWithin G (t + 1) a u = true := by
  intro t
  induction t with
  | zero =>
    intro a h
    rw [reach_zero, beq_iff_eq] at h
    subst h
    rw [reach_succ]
    simp only [List.any_eq_true, Bool.or_eq_true, Bool.and_eq_true, beq_iff_eq]
    exact Or.inr ⟨u, hu, ha, reach_refl G 0 u⟩
  | succ t ih =>
    intro a h
    rw [reach_succ] at h
    rw [reach_succ]
    simp only [List.any_eq_true, Bool.or_eq_true, Bool.and_eq_true, beq_iff_eq] at h ⊢
    rcases h with h | ⟨w', hw', hadj, hr⟩
    · subst h
      exact Or.inr ⟨u, hu, ha, reach_refl G (t + 1) u⟩
    · exact Or.inr ⟨w', hw', hadj, ih w' hr⟩

theorem reach_symm (G : Graph) :
    ∀ t v u, v ∈ G.nodes → reachWithin G t v u = true → reachWithin G t u v = true := by
  intro t
  induction t with
  | zero =>
    intro v u _ h
    rw [reach_zero, beq_iff_eq] at h
    rw [reach_zero, beq_iff_eq]
    exact h.symm
  | succ t ih =>
    intro v u hv h
    rw [reach_succ] at h
    simp only [List.any_eq_true, Bool.or_eq_true, Bool.and_eq_true, beq_iff_eq] at h
    rcases h with h | ⟨w, hw, hadj, hr⟩
    · subst h
      exact reach_refl G (t + 1) v
    · have huw : reachWithin G t u w = true := ih w u hw hr
      have hwv : G.adj w v = true := by rw [adj_symm]; exact hadj
      exact reach_snoc G hv hwv t u huw

theorem shortest_path_length_symm (G : Graph) {v u : Nat}
    (hv : v ∈ G.nodes) (hu : u ∈ G.nodes) :
    shortest_path_length G v u = shortest_path_length G u v := by
  have h : ∀ t, reachWithin G t v u = reachWithin G t u v := by
    intro t
    rw [Bool.eq_iff_iff]
    exact ⟨fun hh => reach_symm G t v u hv hh, fun hh => reach_symm G t u v hu hh⟩
  simp only [shortest_path_length, h]

theorem combos2_cover {v u : Nat} :
    ∀ l : List Nat, v ∈ l → u ∈ l → v ≠ u →
      (v, u) ∈ combos2 l ∨ (u, v) ∈ combos2 l := by
  intro l
  induction l with
  | nil => intro hv; cases hv
  | cons a rest ih =>
    intro hv hu hne
    rcases List.mem_cons.mp hv with rfl | hv'
    · have hu' : u ∈ rest := by
        rcases List.mem_cons.mp hu with rfl | h
        · exact absurd rfl hne
        · exact h
      exact Or.inl (by
        simp only [combos2, List.mem_append, List.mem_map]
        exact Or.inl ⟨u, hu', rfl⟩)
    · rcases List.mem_cons.mp hu with rfl | hu'
      · exact Or.inr (by
          simp only [combos2, List.mem_append, List.mem_map]
          exact Or.inl ⟨v, hv', rfl⟩)
      · rcases ih hv' hu' hne with h | h
        · exact Or.inl (by simp only [combos2, List.mem_append]; exact Or.inr h)
        · exact Or.inr (by simp only [combos2, List.mem_append]; exact Or.inr h)

/-! ### `find?` over an interval of colours -/

theorem find?_range'_eq_some (p : Nat → Bool) :
    ∀ n s i, (List.range' s n).find? p = some i ↔
      (s ≤ i ∧ i < s + n ∧ p i = true ∧ ∀ j, s ≤ j → j < i → p j = false) := by
  intro n
  induction n with
  | zero =>
    intro s i
    simp only [List.range', List.find?_nil]
    constructor
    · intro h; cases h
    · rintro ⟨h1, h2, -, -⟩; omega
  | succ n ih =>
    intro s i
    rw [List.range'_succ]
    by_cases hps : p s = true
    · rw [List.find?_cons_of_pos _ hps]
      constructor
      · intro h
        have hi : s = i := by
          have := Option.some.inj h
          exact this
        subst hi
        exact ⟨Nat.le_refl s, by omega, hps, fun j hj1 hj2 => by omega⟩
      · rintro ⟨h1, h2, h3, h4⟩
        rcases Nat.eq_or_lt_of_le h1 with rfl | hlt
        · rfl
        · exact absurd hps (by simp [h4 s (Nat.le_refl s) hlt])
    · rw [List.find?_cons_of_neg _ hps]
      rw [ih (s + 1) i]
      have hps' : p s = false := by
        rw [Bool.not_eq_true] at hps; exact hps
      constructor
      · rintro ⟨h1, h2, h3, h4⟩
        refine ⟨by omega, by omega, h3, ?_⟩
        intro j hj1 hj2
        rcases Nat.eq_or_lt_of_le hj1 with rfl | hlt
        · exact hps'
        · exact h4 j (by omega) hj2
      · rintro ⟨h1, h2, h3, h4⟩
        have hne : i ≠ s := by
          intro he; rw [he] at h3; rw [hps'] at h3; cases h3
        refine ⟨by omega, by omega, h3, fun j hj1 hj2 => h4 j (by omega) hj2⟩

/-! ### Membership in the constructed model -/

theorem mem_xIdx (G : Graph) (v i : Nat) :
    (v, i) ∈ (buildModel G).xIdx ↔ v ∈ G.nodes ∧ 1 ≤ i ∧ i ≤ G.nodes.length := by
  simp only [buildModel, List.mem_flatMap, List.mem_map, List.mem_range'_1, Prod.mk.injEq]
  constructor
  · rintro ⟨a, ha, i', ⟨hi1, hi2⟩, rfl, rfl⟩
    exact ⟨ha, hi1, by omega⟩
  · rintro ⟨hv, h1, h2⟩
    exact ⟨v, hv, i, ⟨h1, by omega⟩, rfl, rfl⟩

theorem oneCon_mem (G : Graph) {v : Nat} (hv : v ∈ G.nodes) :
    oneCon G.nodes.length v ∈ (buildModel G).constraints := by
  simp only [buildModel, List.mem_append]
  exact Or.inl (Or.inl (List.mem_map_of_mem _ hv))

theorem maxCon_mem (G : Graph) {v i : Nat} (hv : v ∈ G.nodes)
    (h1 : 1 ≤ i) (h2 : i ≤ G.nodes.length) :
    maxCon v i ∈ (buildModel G).constraints := by
  simp only [buildModel, List.mem_append]
  refine Or.inr (List.mem_flatMap.mpr ⟨v, hv, List.mem_map_of_mem _ ?_⟩)
  exact List.mem_range'_1.mpr ⟨h1, by omega⟩

theorem packCon_mem_iff (G : Graph) (a b j : Nat) :
    packCon a b j ∈ (buildModel G).constraints ↔
      ((a, b) ∈ combos2 G.nodes ∧ 1 ≤ j ∧ j ≤ G.nodes.length ∧
        ∃ d, shortest_path_length G a b = some d ∧ d ≤ j) := by
  constructor
  · intro h
    simp only [buildModel, List.mem_append] at h
    rcases h with (h | h) | h
    · exfalso
      rcases List.mem_map.mp h with ⟨v, -, hv⟩
      simp [oneCon, packCon] at hv
    · rcases List.mem_flatMap.mp h with ⟨i, hi, hmem⟩
      rcases List.mem_filterMap.mp hmem with ⟨p, hp, heq⟩
      rcases Option.bind_eq_some.mp heq with ⟨d, hd, hif⟩
      by_cases hdi : d ≤ i
      · rw [if_pos hdi] at hif
        have hcc := Option.some.inj hif
        simp only [packCon, LinCon.mk.injEq, List.cons.injEq, Prod.mk.injEq,
          Var.x.injEq, and_true, true_and] at hcc
        obtain ⟨⟨ha1, hij⟩, hb1, -⟩ := hcc
        subst ha1
        subst hb1
        subst hij
        obtain ⟨hi1, hi2⟩ := List.mem_range'_1.mp hi
        refine ⟨?_, hi1, by omega, d, hd, hdi⟩
        rw [Prod.mk.eta]
        exact hp
      · rw [if_neg hdi] at hif
        cases hif
    · exfalso
      rcases List.mem_flatMap.mp h with ⟨v, -, hmem⟩
      rcases List.mem_map.mp hmem with ⟨i, -, hv⟩
      simp [maxCon, packCon] at hv
  · rintro ⟨hab, hj1, hj2, d, hd, hdj⟩
    simp only [buildModel, List.mem_append]
    refine Or.inl (Or.inr (List.mem_flatMap.mpr ⟨j, ?_, ?_⟩))
    · exact List.mem_range'_1.mpr ⟨hj1, by omega⟩
    · exact List.mem_filterMap.mpr ⟨(a, b), hab, by simp [hd, hdj]⟩

/-! ### Evaluation of the constraint families -/

theorem evalLin_oneCon (val : Var → ℚ) (k v : Nat) :
    evalLin val (oneCon k v).coeffs =
      ((List.range' 1 k).map (fun i => val (Var.x v i))).sum := by
  simp [evalLin, oneCon, List.map_map, Function.comp_def]

theorem evalLin_packCon (val : Var → ℚ) (v u i : Nat) :
    evalLin val (packCon v u i).coeffs = val (Var.x v i) + val (Var.x u i) := by
  simp [evalLin, packCon]

theorem evalLin_maxCon (val : Var → ℚ) (v i : Nat) :
    evalLin val (maxCon v i).coeffs = (i : ℚ) * val (Var.x v i) - val Var.z := by
  simp [evalLin, maxCon]
  ring

/-! ### Consequences of integral feasibility -/

theorem feasible_binary {G : Graph} {val : Var → ℚ} (hf : IntegralFeasible G val)
    {v i : Nat} (hv : v ∈ G.nodes) (h1 : 1 ≤ i) (h2 : i ≤ G.nodes.length) :
    val (Var.x v i) = 0 ∨ val (Var.x v i) = 1 :=
  hf.1 (v, i) ((mem_xIdx G v i).mpr ⟨hv, h1, h2⟩)

theorem feasible_oneCon {G : Graph} {val : Var → ℚ} (hf : IntegralFeasible G val)
    {v : Nat} (hv : v ∈ G.nodes) :
    ((List.range' 1 G.nodes.length).map (fun i => val (Var.x v i))).sum = 1 := by
  have hc := hf.2.2.2.2 _ (oneCon_mem G hv)
  simp only [conHolds, oneCon, decide_eq_true_eq] at hc
  rw [← evalLin_oneCon val G.nodes.length v]
  simpa [oneCon] using hc

theorem feasible_packCon {G : Graph} {val : Var → ℚ} (hf : IntegralFeasible G val)
    {a b j : Nat} (hmem : packCon a b j ∈ (buildModel G).constraints) :
    val (Var.x a j) + val (Var.x b j) ≤ 1 := by
  have hc := hf.2.2.2.2 _ hmem
  simp only [conHolds, packCon, decide_eq_true_eq] at hc
  have := evalLin_packCon val a b j
  simp only [packCon] at this
  rw [this] at hc
  exact_mod_cast hc

theorem feasible_exists_one {G : Graph} {val : Var → ℚ} (hf : IntegralFeasible G val)
    {v : Nat} (hv : v ∈ G.nodes) :
    ∃ i, 1 ≤ i ∧ i ≤ G.nodes.length ∧ val (Var.x v i) = 1 := by
  by_contra hno
  push_neg at hno
  have hzero : ((List.range' 1 G.nodes.length).map (fun i => val (Var.x v i))).sum = 0 := by
    apply List.sum_eq_zero
    intro q hq
    rcases List.mem_map.mp hq with ⟨i, hi, rfl⟩
    obtain ⟨h1, h2⟩ := List.mem_range'_1.mp hi
    rcases feasible_binary hf hv h1 (by omega) with h0 | h1'
    · exact h0
    · exact absurd h1' (hno i h1 (by omega))
  rw [feasible_oneCon hf hv] at hzero
  exact one_ne_zero hzero

/-! ### Decoding the solver valuation -/

theorem mem_color_assignment_iff (G : Graph) (val : Var → ℚ) (v i : Nat) :
    (v, i) ∈ color_assignment G val ↔
      v ∈ G.nodes ∧ 1 ≤ i ∧ i ≤ G.nodes.length ∧
        (1 : ℚ) / 2 < val (Var.x v i) ∧
        ∀ j, 1 ≤ j → j < i → ¬ ((1 : ℚ) / 2 < val (Var.x v j)) := by
  simp only [color_assignment, List.mem_filterMap, Option.map_eq_some', Prod.mk.injEq]
  constructor
  · rintro ⟨v', hv', i', hfind, rfl, rfl⟩
    obtain ⟨h1, h2, h3, h4⟩ := (find?_range'_eq_some _ _ _ _).mp hfind
    rw [decide_eq_true_eq] at h3
    refine ⟨hv', h1, by omega, h3, ?_⟩
    intro j hj1 hj2
    have := h4 j hj1 hj2
    rw [decide_eq_false_iff_not] at this
    exact this
  · rintro ⟨hv, h1, h2, h3, h4⟩
    refine ⟨v, hv, i, (find?_range'_eq_some _ _ _ _).mpr ⟨h1, by omega, ?_, ?_⟩, rfl, rfl⟩
    · rw [decide_eq_true_eq]; exact h3
    · intro j hj1 hj2
      rw [decide_eq_false_iff_not]
      exact h4 j hj1 hj2

theorem map_fst_filterMap (l : List Nat) (f : Nat → Option Nat)
    (h : ∀ v ∈ l, (f v).isSome = true) :
    (l.filterMap (fun v => (f v).map (fun i => (v, i)))).map Prod.fst = l := by
  induction l with
  | nil => simp
  | cons a rest ih =>
    obtain ⟨i, hi⟩ := Option.isSome_iff_exists.mp (h a (List.mem_cons_self a rest))
    simp only [List.filterMap_cons, hi, Option.map_some', List.map_cons]
    rw [ih (fun v hv => h v (List.mem_cons_of_mem _ hv))]

theorem color_assignment_fst {G : Graph} {val : Var → ℚ}
    (hf : IntegralFeasible G val) :
    (color_assignment G val).map Prod.fst = G.nodes := by
  apply map_fst_filterMap
  intro v hv
  obtain ⟨i, h1, h2, hone⟩ := feasible_exists_one hf hv
  apply List.find?_isSome.mpr
  refine ⟨i, List.mem_range'_1.mpr ⟨h1, by omega⟩, ?_⟩
  rw [decide_eq_true_eq, hone]
  norm_num

theorem color_assignment_unique (G : Graph) (val : Var → ℚ) {v i i' : Nat}
    (h : (v, i) ∈ color_assignment G val) (h' : (v, i') ∈ color_assignment G val) :
    i = i' := by
  simp only [color_assignment, List.mem_filterMap, Option.map_eq_some',
    Prod.mk.injEq] at h h'
  obtain ⟨a, -, b, hb, rfl, rfl⟩ := h
  obtain ⟨a', -, b', hb', ha', rfl⟩ := h'
  subst ha'
  rw [hb] at hb'
  exact Option.some.inj hb'

/-! ### Concrete instances used to witness the theorems -/

/-- The path graph `1 - 2 - 3`. -/
def P3 : Graph := ⟨[1, 2, 3], [(1, 2), (2, 3)]⟩

/-- An optimal integral solution of the model of `P3`:
colours `1, 2, 1` and `z = 2`. -/
def valP3 : Var → ℚ := fun w =>
  match w with
  | Var.z => 2
  | Var.x v i =>
      if (v == 1 && i == 1) || (v == 2 && i == 2) || (v == 3 && i == 1) then 1 else 0

unseal Rat.mul Rat.add Rat.sub Rat.inv in
theorem feasP3 : IntegralFeasible P3 valP3 :=
  ⟨by decide, ⟨2, by decide⟩, by decide, by decide, by decide⟩

/-- The empty graph. -/
def G0 : Graph := ⟨[], []⟩

/-! ### The claims -/

/-- C1: for every colour assignment returned by `solve_packing_coloring`
(optimal status, solver values an integral feasible solution of the
constructed model), any two distinct vertices `v` and `u` assigned the
same colour `i` with a finite shortest-path distance `d` satisfy `d > i`. -/
theorem packing_distance_property (G : Graph) (val : Var → ℚ)
    (m : List (Nat × Nat)) (zo : Option ℚ)
    (hf : IntegralFeasible G val)
    (hret : solve_packing_coloring G LpStatus.optimal val = (some m, zo))
    (v u i d : Nat) (hvm : (v, i) ∈ m) (hum : (u, i) ∈ m) (hne : v ≠ u)
    (hd : shortest_path_length G v u = some d) : i < d := by
  have hm : m = color_assignment G val := by
    have h1 : some (color_assignment G val) = some m := congrArg Prod.fst hret
    exact (Option.some.inj h1).symm
  subst hm
  obtain ⟨hv, hi1, hi2, hgtv, -⟩ := (mem_color_assignment_iff G val v i).mp hvm
  obtain ⟨hu, -, -, hgtu, -⟩ := (mem_color_assignment_iff G val u i).mp hum
  have hv1 : val (Var.x v i) = 1 := by
    rcases feasible_binary hf hv hi1 hi2 with h0 | h1
    · rw [h0] at hgtv; norm_num at hgtv
    · exact h1
  have hu1 : val (Var.x u i) = 1 := by
    rcases feasible_binary hf hu hi1 hi2 with h0 | h1
    · rw [h0] at hgtu; norm_num at hgtu
    · exact h1
  by_contra hnot
  push_neg at hnot
  have hpack : val (Var.x v i) + val (Var.x u i) ≤ 1 := by
    rcases combos2_cover G.nodes hv hu hne with hc | hc
    · exact feasible_packCon hf ((packCon_mem_iff G v u i).mpr ⟨hc, hi1, hi2, d, hd, hnot⟩)
    · have hd' : shortest_path_length G u v = some d := by
        rw [← shortest_path_length_symm G hv hu]; exact hd
      have := feasible_packCon hf
        ((packCon_mem_iff G u v i).mpr ⟨hc, hi1, hi2, d, hd', hnot⟩)
      linarith
  rw [hv1, hu1] at hpack
  norm_num at hpack

unseal Rat.mul Rat.add Rat.sub Rat.inv in
theorem packing_distance_property_witness :
    IntegralFeasible P3 valP3 ∧
    solve_packing_coloring P3 LpStatus.optimal valP3 =
      (some [(1, 1), (2, 2), (3, 1)], some 2) ∧
    shortest_path_length P3 1 3 = some 2 ∧ 1 < 2 :=
  ⟨feasP3, by decide, by decide,
    packing_distance_property P3 valP3 [(1, 1), (2, 2), (3, 1)] (some 2)
      feasP3 (by decide) 1 3 1 2 (by decide) (by decide) (by decide) (by decide)⟩

/-- C2: during model construction, for every colour `i ∈ [1, k]` and
every unordered pair of distinct vertices at finite distance `d ≤ i`,
the constraint `x(v,i) + x(u,i) ≤ 1` is in the model, and no packing
constraint is generated for an unreachable pair, at any colour. -/
theorem packing_constraint_generation (G : Graph) :
    (∀ i v u d, 1 ≤ i → i ≤ G.nodes.length → v ∈ G.nodes → u ∈ G.nodes → v ≠ u →
        shortest_path_length G v u = some d → d ≤ i →
        (packCon v u i ∈ (buildModel G).constraints ∨
          packCon u v i ∈ (buildModel G).constraints)) ∧
    (∀ v u, v ∈ G.nodes → u ∈ G.nodes → shortest_path_length G v u = none →
        ∀ i, packCon v u i ∉ (buildModel G).constraints ∧
          packCon u v i ∉ (buildModel G).constraints) := by
  constructor
  · intro i v u d hi1 hi2 hv hu hne hd hdi
    rcases combos2_cover G.nodes hv hu hne with hc | hc
    · exact Or.inl ((packCon_mem_iff G v u i).mpr ⟨hc, hi1, hi2, d, hd, hdi⟩)
    · refine Or.inr ((packCon_mem_iff G u v i).mpr ⟨hc, hi1, hi2, d, ?_, hdi⟩)
      rw [← shortest_path_length_symm G hv hu]
      exact hd
  · intro v u hv hu hnone i
    constructor
    · intro hmem
      obtain ⟨-, -, -, d, hd, -⟩ := (packCon_mem_iff G v u i).mp hmem
      rw [hnone] at hd
      cases hd
    · intro hmem
      obtain ⟨-, -, -, d, hd, -⟩ := (packCon_mem_iff G u v i).mp hmem
      rw [shortest_path_length_symm G hu hv, hnone] at hd
      cases hd

theorem packing_constraint_generation_witness :
    (1 : Nat) ≠ 2 ∧ shortest_path_length P3 1 2 = some 1 ∧
    (packCon 1 2 1 ∈ (buildModel P3).constraints ∨
      packCon 2 1 1 ∈ (buildModel P3).constraints) :=
  ⟨by decide, by decide,
    (packing_constraint_generation P3).1 1 1 2 1 (by decide) (by decide)
      (by decide) (by decide) (by decide) (by decide) (by decide)⟩

/-- C3: for every vertex `v` of the graph, the model contains the
equality constraint stating that the colours of `v` sum to exactly 1. -/
theorem one_color_constraint_generation (G : Graph) (v : Nat) (hv : v ∈ G.nodes) :
    oneCon G.nodes.length v ∈ (buildModel G).constraints ∧
    (oneCon G.nodes.length v).rel = Rel.eq ∧
    ∀ val : Var → ℚ, conHolds val (oneCon G.nodes.length v) = true ↔
      ((List.range' 1 G.nodes.length).map (fun i => val (Var.x v i))).sum = 1 := by
  refine ⟨oneCon_mem G hv, rfl, ?_⟩
  intro val
  have hred : conHolds val (oneCon G.nodes.length v) =
      decide (evalLin val (oneCon G.nodes.length v).coeffs = ((1 : Int) : ℚ)) := rfl
  rw [hred, decide_eq_true_eq, evalLin_oneCon]
  norm_num

theorem one_color_constraint_generation_witness :
    (2 : Nat) ∈ P3.nodes ∧ oneCon P3.nodes.length 2 ∈ (buildModel P3).constraints :=
  ⟨by decide, (one_color_constraint_generation P3 2 (by decide)).1⟩

/-- C4: for every vertex `v` and colour `i ∈ [1, k]`, the model contains
the constraint `i·x(v,i) ≤ z`; `z` is an integer variable bounded in
`[1, k]` and the objective is to minimise `z`. -/
theorem max_color_bound_and_objective (G : Graph) (v i : Nat) (hv : v ∈ G.nodes)
    (h1 : 1 ≤ i) (h2 : i ≤ (buildModel G).k) :
    maxCon v i ∈ (buildModel G).constraints ∧
    (∀ val : Var → ℚ, conHolds val (maxCon v i) = true ↔
      (i : ℚ) * val (Var.x v i) ≤ val Var.z) ∧
    (buildModel G).zLow = 1 ∧ (buildModel G).zUp = ((buildModel G).k : Int) ∧
    (buildModel G).objective = [((1 : Int), Var.z)] ∧
    (buildModel G).sense = Sense.minimize := by
  refine ⟨maxCon_mem G hv h1 h2, ?_, rfl, rfl, rfl, rfl⟩
  intro val
  have hred : conHolds val (maxCon v i) =
      decide (evalLin val (maxCon v i).coeffs ≤ ((0 : Int) : ℚ)) := rfl
  rw [hred, decide_eq_true_eq, evalLin_maxCon]
  push_cast
  constructor <;> intro h <;> linarith

theorem max_color_bound_and_objective_witness :
    (1 : Nat) ∈ P3.nodes ∧ maxCon 1 2 ∈ (buildModel P3).constraints :=
  ⟨by decide, (max_color_bound_and_objective P3 1 2 (by decide) (by decide) (by decide)).1⟩

/-- C5: on optimal status the returned mapping is the decoded
assignment, and a vertex is mapped to colour `i` exactly when `i` is the
smallest colour in `[1, k]` whose solved value exceeds `0.5`. -/
theorem first_color_above_half (G : Graph) (val : Var → ℚ) :
    (solve_packing_coloring G LpStatus.optimal val).1 = some (color_assignment G val) ∧
    ∀ v i, ((v, i) ∈ color_assignment G val ↔
      v ∈ G.nodes ∧ 1 ≤ i ∧ i ≤ G.nodes.length ∧
        (1 : ℚ) / 2 < val (Var.x v i) ∧
        ∀ j, 1 ≤ j → j < i → ¬ ((1 : ℚ) / 2 < val (Var.x v j))) :=
  ⟨rfl, fun v i => mem_color_assignment_iff G val v i⟩

/-- C6: every returned colour assignment (optimal status, integral
feasible values) contains every vertex of the graph exactly once: the
keys are exactly the node list, and a vertex's colour is unique. -/
theorem every_vertex_exactly_one_color (G : Graph) (val : Var → ℚ)
    (m : List (Nat × Nat)) (zo : Option ℚ)
    (hf : IntegralFeasible G val)
    (hret : solve_packing_coloring G LpStatus.optimal val = (some m, zo)) :
    m.map Prod.fst = G.nodes ∧
    ∀ v i i', (v, i) ∈ m → (v, i') ∈ m → i = i' := by
  have hm : m = color_assignment G val := by
    have h1 : some (color_assignment G val) = some m := congrArg Prod.fst hret
    exact (Option.some.inj h1).symm
  subst hm
  exact ⟨color_assignment_fst hf,
    fun v i i' h h' => color_assignment_unique G val h h'⟩

unseal Rat.mul Rat.add Rat.sub Rat.inv in
theorem every_vertex_exactly_one_color_witness :
    IntegralFeasible P3 valP3 ∧
    ([(1, 1), (2, 2), (3, 1)] : List (Nat × Nat)).map Prod.fst = P3.nodes :=
  ⟨feasP3,
    (every_vertex_exactly_one_color P3 valP3 [(1, 1), (2, 2), (3, 1)] (some 2)
      feasP3 (by decide)).1⟩

/-- C7: on any solver status other than optimal, the function returns
the absence marker for both the mapping and the optimal value. -/
theorem non_optimal_returns_none (G : Graph) (status : LpStatus) (val : Var → ℚ)
    (h : status ≠ LpStatus.optimal) :
    solve_packing_coloring G status val = (none, none) := by
  cases status with
  | optimal => exact absurd rfl h
  | notSolved => rfl
  | infeasible => rfl
  | unbounded => rfl
  | undefined => rfl

theorem non_optimal_returns_none_witness :
    LpStatus.infeasible ≠ LpStatus.optimal ∧
    solve_packing_coloring P3 LpStatus.infeasible valP3 = (none, none) :=
  ⟨by decide, non_optimal_returns_none P3 LpStatus.infeasible valP3 (by decide)⟩

/-- C8: the colour bound `k` is the number of vertices; a binary
variable `x(v,i)` is created exactly for the vertices `v` and the
colours `i ∈ [1, |V|]`; `z` is bounded above by `|V|`. -/
theorem variable_space_bound (G : Graph) :
    (buildModel G).k = G.nodes.length ∧
    (∀ v i, (v, i) ∈ (buildModel G).xIdx ↔
      v ∈ G.nodes ∧ 1 ≤ i ∧ i ≤ G.nodes.length) ∧
    (buildModel G).zUp = (G.nodes.length : Int) :=
  ⟨rfl, fun v i => mem_xIdx G v i, rfl⟩

/-- C9: on an optimal solution the returned optimal value is a positive
integer, and every colour in the returned mapping is a positive integer. -/
theorem outputs_positive_integers (G : Graph) (val : Var → ℚ)
    (hf : IntegralFeasible G val) :
    ∃ m zq, solve_packing_coloring G LpStatus.optimal val = (some m, some zq) ∧
      (∃ n : Int, zq = (n : ℚ) ∧ 1 ≤ n) ∧ ∀ p ∈ m, 1 ≤ p.2 := by
  refine ⟨color_assignment G val, val Var.z, rfl, ?_, ?_⟩
  · obtain ⟨n, hn⟩ := hf.2.1
    refine ⟨n, hn, ?_⟩
    have h1 : ((1 : Int) : ℚ) ≤ val Var.z := hf.2.2.1
    rw [hn] at h1
    exact_mod_cast h1
  · rintro ⟨v, c⟩ hp
    obtain ⟨-, h1, -, -, -⟩ := (mem_color_assignment_iff G val v c).mp hp
    exact h1

unseal Rat.mul Rat.add Rat.sub Rat.inv in
theorem outputs_positive_integers_witness :
    IntegralFeasible P3 valP3 ∧
    (∃ m zq, solve_packing_coloring P3 LpStatus.optimal valP3 = (some m, some zq) ∧
      (∃ n : Int, zq = (n : ℚ) ∧ 1 ≤ n) ∧ ∀ p ∈ m, 1 ≤ p.2) :=
  ⟨feasP3, outputs_positive_integers P3 valP3 feasP3⟩

/-- C10: for the empty graph the model has no `x` variables and bounds
`1 ≤ z ≤ 0`, hence it is infeasible; whenever the solver is sound (it
reports optimal only with an integral feasible valuation),
`solve_packing_coloring` returns the absence marker `(None, None)`. -/
theorem empty_graph_model_infeasible (G : Graph) (h : G.nodes = []) :
    (buildModel G).xIdx = [] ∧ (buildModel G).zLow = 1 ∧ (buildModel G).zUp = 0 ∧
    (¬ ∃ val : Var → ℚ, IntegralFeasible G val) ∧
    (∀ status val, (status = LpStatus.optimal → IntegralFeasible G val) →
      solve_packing_coloring G status val = (none, none)) := by
  have hinfeas : ¬ ∃ val : Var → ℚ, IntegralFeasible G val := by
    rintro ⟨val, hf⟩
    have hlo : (((buildModel G).zLow : Int) : ℚ) ≤ val Var.z := hf.2.2.1
    have hhi : val Var.z ≤ (((buildModel G).zUp : Int) : ℚ) := hf.2.2.2.1
    simp only [buildModel, h, List.length_nil, Int.cast_one, Nat.cast_zero,
      Int.cast_zero, Int.cast_natCast] at hlo hhi
    linarith
  refine ⟨?_, rfl, ?_, hinfeas, ?_⟩
  · simp [buildModel, h]
  · simp [buildModel, h]
  · intro status val hs
    cases status with
    | optimal => exact absurd (hs rfl) (fun hf => hinfeas ⟨val, hf⟩)
    | notSolved => rfl
    | infeasible => rfl
    | unbounded => rfl
    | undefined => rfl

theorem empty_graph_model_infeasible_witness :
    G0.nodes = [] ∧
    ((buildModel G0).xIdx = [] ∧ (buildModel G0).zLow = 1 ∧ (buildModel G0).zUp = 0 ∧
      (¬ ∃ val : Var → ℚ, IntegralFeasible G0 val) ∧
      (∀ status val, (status = LpStatus.optimal → IntegralFeasible G0 val) →
        solve_packing_coloring G0 status val = (none, none))) :=
  ⟨rfl, empty_graph_model_infeasible G0 rfl⟩

end PackingColoring
